import Mathlib

/-!
Verification of the DistillLoss module (src/util/train_module/self_distill.py).

The Python class DistillLoss holds a student temperature, a crop count and a
precomputed per-epoch teacher-temperature schedule
(np.linspace warmup ramp ++ constant tail), and its forward method computes a
temperature-scaled KL-style loss between the student and teacher output blocks
for every ordered pair of distinct crops.

Shallow embedding choices:
- tensors are rectangular-by-convention lists of rows over the reals;
- configuration floats are modelled as rationals (exact values) and cast to
  the reals inside forward;
- fallible operations (numpy construction, numpy indexing, tuple indexing,
  kl_div shape checking, the final division by the term counter) live in an
  Except monad with one error constructor per Python exception site;
- torch.chunk is modelled with its real semantics: chunk size is the ceiling
  of rows / chunks, the last chunk may be shorter and fewer chunks may be
  returned; no divisibility validation happens;
- F.kl_div(input, target, reduction = batchmean) is modelled pointwise as
  target * (log target - input) (zero where the target is nonpositive, as in
  ATen), with numpy-style broadcasting along both axes when the shapes
  disagree, and the sum divided by the row count of input;
- numpy fancy indexing of the schedule wraps negative indices, as numpy does.
-/

deriving instance DecidableEq for Except

/-- Rows-times-columns real matrix, as a list of rows. -/
abbrev Mat := List (List ℝ)

/-- One constructor per distinct Python exception site in self_distill.py. -/
inductive Err where
  /-- numpy ValueError (negative linspace sample count or negative ones length). -/
  | valueError
  /-- numpy IndexError raised by teacher_temp_schedule[epoch]. -/
  | epochIndexError
  /-- Python IndexError raised by student_outs[i] / teacher_outs[j] when chunk
      returned fewer pieces than n_crops. -/
  | chunkIndexError
  /-- torch RuntimeError raised by kl_div on non-broadcastable shapes. -/
  | shapeError
  /-- Python ZeroDivisionError from loss / n_terms when no term was added. -/
  | zeroDivisionError
deriving DecidableEq

/-- The state of a constructed DistillLoss object. -/
structure DistillLoss where
  student_temp : ℚ
  n_crops : ℕ
  teacher_temp_schedule : List ℚ
deriving DecidableEq

/-- np.linspace start stop num (endpoint variant used by the source): num
    evenly spaced samples from start to stop; a single sample is start. -/
def linspace (a b : ℚ) (num : ℕ) : List ℚ :=
  if num = 1 then [a]
  else (List.range num).map (fun i : ℕ => a + (b - a) * (i : ℚ) / ((num : ℚ) - 1))

/-- DistillLoss.__init__: builds the teacher temperature schedule as
    np.concatenate(np.linspace(warmup_teacher_temp, teacher_temp,
    warmup_teacher_temp_epochs), np.ones(n_epochs - warmup_teacher_temp_epochs)
    * teacher_temp).  numpy rejects a negative sample count for linspace and a
    negative length for ones with a ValueError. -/
def DistillLoss.init (warmup_teacher_temp_epochs n_epochs : ℤ) (n_crops : ℕ)
    (warmup_teacher_temp teacher_temp student_temp : ℚ) : Except Err DistillLoss :=
  if warmup_teacher_temp_epochs < 0 then .error .valueError
  else if n_epochs - warmup_teacher_temp_epochs < 0 then .error .valueError
  else .ok
    { student_temp := student_temp
      n_crops := n_crops
      teacher_temp_schedule :=
        linspace warmup_teacher_temp teacher_temp warmup_teacher_temp_epochs.toNat ++
          List.replicate (n_epochs - warmup_teacher_temp_epochs).toNat teacher_temp }

/-- numpy 1-d array indexing with a Python int: in-range indices are looked up,
    negative indices in [-len, -1] wrap around, anything else raises IndexError. -/
def npIndex (xs : List ℚ) (i : ℤ) : Except Err ℚ :=
  if 0 ≤ i ∧ i < xs.length then .ok (xs.getD i.toNat 0)
  else if -(xs.length : ℤ) ≤ i ∧ i < 0 then .ok (xs.getD (i + xs.length).toNat 0)
  else .error .epochIndexError

/-- torch.chunk along dim 0: pieces of size ceil(len / n); the last piece may
    be shorter, and fewer than n pieces are returned when len < n.  (torch
    itself rejects n = 0; the development only uses n >= 1.) -/
def chunkTorch (n : ℕ) (xs : List α) : List (List α) :=
  let c := (xs.length + n - 1) / n
  if c = 0 then []
  else (List.range ((xs.length + c - 1) / c)).map (fun k => (xs.drop (k * c)).take c)

/-- Python tuple indexing with a nonnegative index: IndexError when out of range. -/
def tupleGet (xs : List α) (i : ℕ) : Except Err α :=
  match xs[i]? with
  | some a => .ok a
  | none => .error .chunkIndexError

/-- F.softmax along the last axis, one row. -/
noncomputable def softmaxRow (x : List ℝ) : List ℝ :=
  x.map (fun xi => Real.exp xi / (x.map Real.exp).sum)

/-- F.log_softmax along the last axis, one row. -/
noncomputable def logSoftmaxRow (x : List ℝ) : List ℝ :=
  x.map (fun xi => xi - Real.log ((x.map Real.exp).sum))

/-- numpy/torch broadcasting of one axis: equal lengths are zipped, a
    length-one side is repeated, anything else is a shape mismatch. -/
def broadcastPairs (xs : List α) (ys : List β) : Option (List (α × β)) :=
  if xs.length = ys.length then some (xs.zip ys)
  else
    match xs, ys with
    | [x], ys => some (ys.map (fun y => (x, y)))
    | xs, [y] => some (xs.map (fun x => (x, y)))
    | _, _ => none

/-- Broadcast every paired row along the class axis; None as soon as one
    pair of rows fails to broadcast. -/
def broadcastAll : List (List α × List β) → Option (List (List (α × β)))
  | [] => some []
  | rc :: rest =>
    match broadcastPairs rc.1 rc.2, broadcastAll rest with
    | some row, some rows => some (row :: rows)
    | _, _ => none

/-- Pointwise kl_div term: target * (log target - input), zero where the
    target is nonpositive (the ATen kernel masks target <= 0 to zero). -/
noncomputable def klPoint (a b : ℝ) : ℝ :=
  if 0 < b then b * (Real.log b - a) else 0

/-- F.kl_div(input, target, reduction = batchmean): broadcast the two
    matrices, sum all pointwise terms, divide by input.size(0). -/
noncomputable def klDivBatchmean (input target : Mat) : Except Err ℝ :=
  match broadcastPairs input target with
  | none => .error .shapeError
  | some rowPairs =>
    match broadcastAll rowPairs with
    | none => .error .shapeError
    | some rows =>
      .ok ((rows.map (fun row => (row.map (fun q => klPoint q.1 q.2)).sum)).sum
        / (input.length : ℝ))

/-- The ordered index pairs the double loop visits: all (i, j) with i, j in
    range n_crops, skipping i == j via continue. -/
def pairsList (n : ℕ) : List (ℕ × ℕ) :=
  (List.range n).flatMap (fun i =>
    ((List.range n).filter (fun j => j ≠ i)).map (fun j => (i, j)))

/-- The body of one loop iteration: index both chunk tuples, then
    F.kl_div(F.log_softmax(student_outs[i]), teacher_outs[j], batchmean). -/
noncomputable def pairTerm (cs ts : List Mat) (p : ℕ × ℕ) : Except Err ℝ :=
  match tupleGet cs p.1 with
  | .error e => .error e
  | .ok si =>
    match tupleGet ts p.2 with
    | .error e => .error e
    | .ok tj => klDivBatchmean (si.map logSoftmaxRow) tj

/-- The double loop: fold the pairwise terms into the running loss, stopping
    at the first raised exception. -/
noncomputable def accumLoss (cs ts : List Mat) : List (ℕ × ℕ) → ℝ → Except Err ℝ
  | [], acc => .ok acc
  | p :: rest, acc =>
    match pairTerm cs ts p with
    | .error e => .error e
    | .ok t => accumLoss cs ts rest (acc + t)

/-- DistillLoss.forward: scale and chunk the student logits, look the teacher
    temperature up in the schedule, softmax-detach-chunk the teacher logits
    (detach changes no value), accumulate kl_div over all ordered pairs of
    distinct crops, and divide by the term count n_crops * (n_crops - 1). -/
noncomputable def DistillLoss.forward (dl : DistillLoss)
    (student_outputs teacher_outputs : Mat) (epoch : ℤ) : Except Err ℝ :=
  let student_outs :=
    chunkTorch dl.n_crops
      (student_outputs.map (fun r => r.map (fun x => x / (dl.student_temp : ℝ))))
  match npIndex dl.teacher_temp_schedule epoch with
  | .error e => .error e
  | .ok temp =>
    let teacher_outs :=
      chunkTorch dl.n_crops
        (teacher_outputs.map (fun r => softmaxRow (r.map (fun x => x / (temp : ℝ)))))
    match accumLoss student_outs teacher_outs (pairsList dl.n_crops) 0 with
    | .error e => .error e
    | .ok loss =>
      if dl.n_crops * (dl.n_crops - 1) = 0 then .error .zeroDivisionError
      else .ok (loss / ((dl.n_crops * (dl.n_crops - 1) : ℕ) : ℝ))

/-- Modelled from the spec: the claimed per-pair term, the batch-mean over
    rows of sum_over_classes(-teacherProbs * logStudent) (cross-entropy of
    the teacher block against the student block, divided by the block's row
    count).  This is the comparison definition for the refinement claim about
    the value forward accumulates; it follows the spec's words, not the code. -/
noncomputable def specCrossEntropyTerm (logStudent teacherProbs : Mat) : ℝ :=
  ((teacherProbs.zip logStudent).map
    (fun rc => ((rc.1.zip rc.2).map (fun q => -q.1 * q.2)).sum)).sum
    / (logStudent.length : ℝ)

/-- Modelled from the spec: the value the spec claims forward returns — the
    same scaling, schedule lookup, softmax and chunking as forward, but with
    the accumulated term taken to be the cross-entropy batch-mean
    specCrossEntropyTerm, and the total divided by n_crops * (n_crops - 1). -/
noncomputable def specForward (dl : DistillLoss) (s t : Mat) (epoch : ℤ) :
    Except Err ℝ :=
  match npIndex dl.teacher_temp_schedule epoch with
  | .error e => .error e
  | .ok temp =>
    let studentChunks :=
      chunkTorch dl.n_crops
        (s.map (fun r => r.map (fun x => x / (dl.student_temp : ℝ))))
    let teacherChunks :=
      chunkTorch dl.n_crops
        (t.map (fun r => softmaxRow (r.map (fun x => x / (temp : ℝ)))))
    .ok ((((pairsList dl.n_crops).map (fun p =>
        specCrossEntropyTerm ((studentChunks.getD p.1 []).map logSoftmaxRow)
          (teacherChunks.getD p.2 []))).sum)
      / ((dl.n_crops * (dl.n_crops - 1) : ℕ) : ℝ))

/-- Add the real constant c to every entry of row k, leaving the other rows
    unchanged (the transformation quantified over in the shift-invariance
    claim). -/
noncomputable def shiftRow (k : ℕ) (c : ℝ) : Mat → Mat
  | [] => []
  | r :: rs =>
    match k with
    | 0 => r.map (fun x => x + c) :: rs
    | k + 1 => r :: shiftRow k c rs

/-!
Forward-mode automatic-differentiation model of forward, used to state the
detach/no-gradient claim.  A Dual number carries a value and a tangent; every
torch operation propagates tangents by its derivative, and Tensor.detach is
the operation that zeroes the tangent (that is exactly its autograd meaning:
the detached value is excluded from gradient tracking).  A gradient flows
from teacher_outputs to the loss iff some teacher tangent can make the loss
tangent nonzero.
-/

/-- A dual number: value and tangent. -/
abbrev Dual := ℝ × ℝ

/-- Dual constant (zero tangent). -/
noncomputable def dConst (c : ℝ) : Dual := (c, 0)

/-- Dual addition. -/
noncomputable def dAdd (a b : Dual) : Dual := (a.1 + b.1, a.2 + b.2)

/-- Dual subtraction. -/
noncomputable def dSub (a b : Dual) : Dual := (a.1 - b.1, a.2 - b.2)

/-- Dual multiplication (product rule). -/
noncomputable def dMul (a b : Dual) : Dual := (a.1 * b.1, a.2 * b.1 + a.1 * b.2)

/-- Dual division (quotient rule). -/
noncomputable def dDiv (a b : Dual) : Dual :=
  (a.1 / b.1, (a.2 * b.1 - a.1 * b.2) / (b.1 * b.1))

/-- Dual exponential. -/
noncomputable def dExp (a : Dual) : Dual := (Real.exp a.1, a.2 * Real.exp a.1)

/-- Dual logarithm. -/
noncomputable def dLog (a : Dual) : Dual := (Real.log a.1, a.2 / a.1)

/-- Dual list sum. -/
noncomputable def dSum (l : List Dual) : Dual := ((l.map Prod.fst).sum, (l.map Prod.snd).sum)

/-- Tensor.detach: keep the value, drop it from gradient tracking. -/
noncomputable def dDetach (a : Dual) : Dual := (a.1, 0)

/-- A matrix of dual numbers. -/
abbrev DMat := List (List Dual)

/-- F.softmax on dual rows. -/
noncomputable def softmaxRowD (x : List Dual) : List Dual :=
  x.map (fun xi => dDiv (dExp xi) (dSum (x.map dExp)))

/-- F.log_softmax on dual rows. -/
noncomputable def logSoftmaxRowD (x : List Dual) : List Dual :=
  x.map (fun xi => dSub xi (dLog (dSum (x.map dExp))))

/-- Pointwise kl_div term on duals. -/
noncomputable def klPointD (a b : Dual) : Dual :=
  if 0 < b.1 then dMul b (dSub (dLog b) a) else dConst 0

/-- F.kl_div with batchmean reduction on dual matrices. -/
noncomputable def klDivBatchmeanD (input target : DMat) : Except Err Dual :=
  match broadcastPairs input target with
  | none => .error .shapeError
  | some rowPairs =>
    match broadcastAll rowPairs with
    | none => .error .shapeError
    | some rows =>
      .ok (dDiv (dSum (rows.map (fun row => dSum (row.map (fun q => klPointD q.1 q.2)))))
        (dConst (input.length : ℝ)))

/-- One loop iteration on duals. -/
noncomputable def pairTermD (cs ts : List DMat) (p : ℕ × ℕ) : Except Err Dual :=
  match tupleGet cs p.1 with
  | .error e => .error e
  | .ok si =>
    match tupleGet ts p.2 with
    | .error e => .error e
    | .ok tj => klDivBatchmeanD (si.map logSoftmaxRowD) tj

/-- The double loop on duals. -/
noncomputable def accumLossD (cs ts : List DMat) : List (ℕ × ℕ) → Dual → Except Err Dual
  | [], acc => .ok acc
  | p :: rest, acc =>
    match pairTermD cs ts p with
    | .error e => .error e
    | .ok t => accumLossD cs ts rest (dAdd acc t)

/-- DistillLoss.forward on dual inputs: the same pipeline as forward, with
    the teacher probabilities detached right after the softmax, exactly where
    the source calls .detach(). -/
noncomputable def forwardD (dl : DistillLoss) (s t : DMat) (epoch : ℤ) :
    Except Err Dual :=
  let student_outs :=
    chunkTorch dl.n_crops
      (s.map (fun r => r.map (fun x => dDiv x (dConst (dl.student_temp : ℝ)))))
  match npIndex dl.teacher_temp_schedule epoch with
  | .error e => .error e
  | .ok temp =>
    let teacher_outs :=
      chunkTorch dl.n_crops
        ((t.map (fun r => softmaxRowD (r.map (fun x => dDiv x (dConst (temp : ℝ)))))).map
          (fun r => r.map dDetach))
    match accumLossD student_outs teacher_outs (pairsList dl.n_crops) (dConst 0) with
    | .error e => .error e
    | .ok loss =>
      if dl.n_crops * (dl.n_crops - 1) = 0 then .error .zeroDivisionError
      else .ok (dDiv loss (dConst ((dl.n_crops * (dl.n_crops - 1) : ℕ) : ℝ)))

/-- Concrete instance: student_temp 1, two crops, one epoch of teacher
    temperature 1 (used in the concrete evaluations below). -/
def dlUnit : DistillLoss := ⟨1, 2, [1]⟩

/-- Concrete instance with two epochs of teacher temperature 1. -/
def dlUnit2 : DistillLoss := ⟨1, 2, [1, 1]⟩

/-- Concrete instance whose schedule is the two-epoch warmup ramp from 7/100
    to 1/25 followed by one constant entry. -/
def dlC2W : DistillLoss := ⟨1/10, 2, [7/100, 1/25, 1/25]⟩

/-- Concrete instance with the one-epoch warmup schedule of the C2
    counterexample. -/
def dlC3W : DistillLoss := ⟨1/10, 2, [7/100, 1/25]⟩

/-- Extend a permutation of Fin n to the naturals (identity above n); used to
    reindex the loop pairs when the crop blocks are permuted. -/
def permNat (n : ℕ) (sg : Equiv.Perm (Fin n)) (i : ℕ) : ℕ :=
  if h : i < n then (sg ⟨i, h⟩ : ℕ) else i

/-- The value of a succeeded Except computation (0 on error). -/
noncomputable def valOf : Except Err ℝ → ℝ
  | .ok v => v
  | .error _ => 0

/-! General lemmas about the embedded operations. -/

theorem npIndex_out (xs : List ℚ) (i : ℤ)
    (h : i < -(xs.length : ℤ) ∨ (xs.length : ℤ) ≤ i) :
    npIndex xs i = .error .epochIndexError := by
  unfold npIndex
  have h1 : ¬ (0 ≤ i ∧ i < (xs.length : ℤ)) := by omega
  have h2 : ¬ (-(xs.length : ℤ) ≤ i ∧ i < 0) := by omega
  simp [h1, h2]

theorem npIndex_wrap (xs : List ℚ) (i : ℤ) (h1 : -(xs.length : ℤ) ≤ i) (h2 : i < 0) :
    npIndex xs i = npIndex xs (i + xs.length) := by
  unfold npIndex
  have ha : ¬ (0 ≤ i ∧ i < (xs.length : ℤ)) := by omega
  have hb : (-(xs.length : ℤ) ≤ i ∧ i < 0) := ⟨h1, h2⟩
  have hc : 0 ≤ i + xs.length ∧ i + xs.length < (xs.length : ℤ) := by omega
  simp [ha, hb, hc]

theorem npIndex_in (xs : List ℚ) (i : ℤ) (h1 : 0 ≤ i) (h2 : i < xs.length) :
    npIndex xs i = .ok (xs.getD i.toNat 0) := by
  unfold npIndex
  simp [h1, h2]

theorem linspace_length (a b : ℚ) (num : ℕ) : (linspace a b num).length = num := by
  unfold linspace
  split
  · simp only [List.length_cons, List.length_nil]
    omega
  · rw [List.length_map, List.length_range]

theorem linspace_getD (a b : ℚ) (num i : ℕ) (h2 : 2 ≤ num) (hi : i < num) :
    (linspace a b num).getD i 0 = a + (b - a) * (i : ℚ) / ((num : ℚ) - 1) := by
  unfold linspace
  rw [if_neg (by omega)]
  rw [List.getD_eq_getElem _ _ (by rw [List.length_map, List.length_range]; exact hi)]
  rw [List.getElem_map, List.getElem_range]

theorem linspace_getD_zero (a b : ℚ) (num : ℕ) (h1 : 1 ≤ num) :
    (linspace a b num).getD 0 0 = a := by
  by_cases h : num = 1
  · subst h
    rfl
  · rw [linspace_getD a b num 0 (by omega) (by omega)]
    simp

theorem linspace_getD_last (a b : ℚ) (num : ℕ) (h2 : 2 ≤ num) :
    (linspace a b num).getD (num - 1) 0 = b := by
  rw [linspace_getD a b num (num - 1) h2 (by omega)]
  have hx : ((num : ℚ) - 1) ≠ 0 := by
    have h3 : (2 : ℚ) ≤ (num : ℚ) := by exact_mod_cast h2
    linarith
  have hcast : ((num - 1 : ℕ) : ℚ) = (num : ℚ) - 1 := by
    have h4 : 1 ≤ num := by omega
    push_cast [h4]
    ring
  rw [hcast, mul_div_assoc, div_self hx, mul_one]
  ring

theorem length_filter_ne_range (n i : ℕ) (hi : i < n) :
    ((List.range n).filter (fun j => j ≠ i)).length = n - 1 := by
  induction n with
  | zero => omega
  | succ m ih =>
    rw [List.range_succ, List.filter_append, List.length_append]
    by_cases him : i = m
    · subst him
      have h1 : (List.range i).filter (fun j => j ≠ i) = List.range i :=
        List.filter_eq_self.mpr (fun a ha => by
          simp only [List.mem_range] at ha
          simp only [decide_eq_true_eq]
          omega)
      have h2 : [i].filter (fun j => j ≠ i) = [] := by simp
      rw [h1, h2]
      simp
    · have him2 : i < m := by omega
      have h2 : [m].filter (fun j => j ≠ i) = [m] := by
        have hmi : m ≠ i := fun hc => him hc.symm
        simp [hmi]
      rw [ih him2, h2]
      simp only [List.length_cons, List.length_nil]
      omega

theorem chunk2_two (x y : α) : chunkTorch 2 [x, y] = [[x], [y]] := by
  norm_num [chunkTorch, List.range_succ]

theorem chunk2_three (x y z : α) : chunkTorch 2 [x, y, z] = [[x, y], [z]] := by
  norm_num [chunkTorch, List.range_succ]

theorem softmax_zero2 : softmaxRow [0, 0] = [1/2, 1/2] := by
  unfold softmaxRow
  norm_num [Real.exp_zero]

theorem logsoftmax_zero2 : logSoftmaxRow [0, 0] = [-Real.log 2, -Real.log 2] := by
  unfold logSoftmaxRow
  norm_num [Real.exp_zero]

theorem klpoint_half : klPoint (-Real.log 2) (1/2) = 0 := by
  unfold klPoint
  rw [if_pos (by norm_num)]
  have h : Real.log (1/2 : ℝ) = -Real.log 2 := by
    rw [one_div, Real.log_inv]
  rw [h]
  ring

theorem kldiv_zero22 :
    klDivBatchmean [[-Real.log 2, -Real.log 2]] [[1/2, 1/2]] = .ok 0 := by
  simp only [klDivBatchmean]
  norm_num [broadcastAll, broadcastPairs, klpoint_half]

theorem pairs_two : pairsList 2 = [(0, 1), (1, 0)] := by decide

theorem forward_eval_22 (dl : DistillLoss) (epoch : ℤ)
    (hn : dl.n_crops = 2) (hst : dl.student_temp = 1)
    (h : npIndex dl.teacher_temp_schedule epoch = .ok 1) :
    dl.forward [[0, 0], [0, 0]] [[0, 0], [0, 0]] epoch = .ok 0 := by
  simp only [DistillLoss.forward, hn, hst, h]
  have hstu : ([[0, 0], [0, 0]] : Mat).map (fun r => r.map (fun x => x / ((1 : ℚ) : ℝ)))
      = [[0, 0], [0, 0]] := by norm_num
  have htea : ([[0, 0], [0, 0]] : Mat).map
      (fun r => softmaxRow (r.map (fun x => x / ((1 : ℚ) : ℝ))))
      = [[1/2, 1/2], [1/2, 1/2]] := by
    norm_num [softmax_zero2]
  rw [hstu, htea, chunk2_two, chunk2_two, pairs_two]
  have hterm : pairTerm [[[0, 0]], [[0, 0]]] [[[1/2, 1/2]], [[1/2, 1/2]]] (0, 1) = .ok 0 := by
    simp only [pairTerm, tupleGet]
    norm_num [logsoftmax_zero2, kldiv_zero22]
  have hterm2 : pairTerm [[[0, 0]], [[0, 0]]] [[[1/2, 1/2]], [[1/2, 1/2]]] (1, 0) = .ok 0 := by
    simp only [pairTerm, tupleGet]
    norm_num [logsoftmax_zero2, kldiv_zero22]
  simp only [accumLoss, hterm, hterm2]
  norm_num

theorem npIndex_unit0 : npIndex [1] 0 = .ok 1 := by
  unfold npIndex
  norm_num

theorem npIndex_unit2_neg1 : npIndex [1, 1] (-1) = .ok 1 := by
  unfold npIndex
  norm_num

/-! Claim C2: teacher temperature schedule shape. -/

/-- C2 (amended): for 1 <= w <= E the constructed schedule has length E,
    starts at a, ends its ramp at b provided w >= 2, is constantly b from
    index w on, and its first w entries follow the linear interpolation
    formula provided w >= 2.  (For w = 1 the single warmup entry is a, not b,
    which is what the counterexample below exhibits.) -/
theorem c2_schedule_amended (w E : ℤ) (n : ℕ) (a b st : ℚ)
    (h1 : 1 ≤ w) (h2 : w ≤ E) :
    ∃ dl, DistillLoss.init w E n a b st = .ok dl ∧
      dl.teacher_temp_schedule.length = E.toNat ∧
      dl.teacher_temp_schedule.getD 0 0 = a ∧
      (2 ≤ w → dl.teacher_temp_schedule.getD (w - 1).toNat 0 = b) ∧
      (∀ e : ℕ, w.toNat ≤ e → e < E.toNat → dl.teacher_temp_schedule.getD e 0 = b) ∧
      (2 ≤ w → ∀ i : ℕ, (i : ℤ) < w →
        dl.teacher_temp_schedule.getD i 0 = a + (b - a) * (i : ℚ) / ((w.toNat : ℚ) - 1)) := by
  have hw0 : ¬ w < 0 := by omega
  have hEw : ¬ E - w < 0 := by omega
  refine ⟨_, by unfold DistillLoss.init; rw [if_neg hw0, if_neg hEw], ?_, ?_, ?_, ?_, ?_⟩
  · simp only [List.length_append, linspace_length, List.length_replicate]
    omega
  · rw [List.getD_append _ _ _ _ (by rw [linspace_length]; omega)]
    exact linspace_getD_zero a b _ (by omega)
  · intro hw2
    rw [List.getD_append _ _ _ _ (by rw [linspace_length]; omega)]
    have he : (w - 1).toNat = w.toNat - 1 := by omega
    rw [he]
    exact linspace_getD_last a b _ (by omega)
  · intro e he1 he2
    rw [List.getD_append_right _ _ _ _ (by rw [linspace_length]; omega)]
    rw [linspace_length]
    rw [List.getD_eq_getElem _ _ (by simp; omega)]
    simp
  · intro hw2 i hi
    rw [List.getD_append _ _ _ _ (by rw [linspace_length]; omega)]
    exact linspace_getD a b _ i (by omega) (by omega)

/-- C2 (counterexample): with warmupTeacherTempEpochs = 1, numEpochs = 2,
    warmupTeacherTemp = 7/100 and teacherTemp = 1/25, construction succeeds
    and schedule[w-1] = schedule[0] = 7/100, which differs from teacherTemp,
    contradicting the claimed schedule[w-1] == b for every w >= 1. -/
theorem c2_counterexample :
    DistillLoss.init 1 2 2 (7/100) (1/25) (1/10) =
      .ok ⟨1/10, 2, [7/100, 1/25]⟩ ∧ (7/100 : ℚ) ≠ 1/25 := by
  constructor
  · unfold DistillLoss.init
    rw [if_neg (by decide), if_neg (by decide)]
    have h1 : linspace (7/100) (1/25) ((1:ℤ)).toNat = [7/100] := by
      have ht : ((1:ℤ)).toNat = 1 := rfl
      unfold linspace
      rw [ht, if_pos rfl]
    have h2 : List.replicate ((2:ℤ) - 1).toNat ((1:ℚ)/25) = [1/25] := rfl
    rw [h1, h2]
    rfl
  · norm_num

theorem initC2W : DistillLoss.init 2 3 2 (7/100) (1/25) (1/10) = .ok dlC2W := by
  unfold DistillLoss.init dlC2W
  rw [if_neg (by decide), if_neg (by decide)]
  have h1 : linspace (7/100) (1/25) ((2:ℤ)).toNat = [7/100, 1/25] := by
    have ht : ((2:ℤ)).toNat = 2 := rfl
    unfold linspace
    rw [ht, if_neg (by decide)]
    norm_num [List.range_succ]
  have h2 : List.replicate ((3:ℤ) - 2).toNat ((1:ℚ)/25) = [1/25] := rfl
  rw [h1, h2]
  rfl

/-- C2 (witness): the amended schedule theorem instantiated at w = 2, E = 3,
    a = 7/100, b = 1/25. -/
theorem c2_schedule_witness :
    DistillLoss.init 2 3 2 (7/100) (1/25) (1/10) = .ok dlC2W ∧
    dlC2W.teacher_temp_schedule.getD 0 0 = 7/100 ∧
    dlC2W.teacher_temp_schedule.getD 1 0 = 1/25 ∧
    dlC2W.teacher_temp_schedule.getD 2 0 = 1/25 := by
  obtain ⟨dl, hok, hlen, h0, hlast, htail, hlin⟩ :=
    c2_schedule_amended 2 3 2 (7/100) (1/25) (1/10) (by omega) (by omega)
  have hdl : dl = dlC2W :=
    Except.ok.inj (hok.symm.trans initC2W)
  subst hdl
  refine ⟨hok, h0, ?_, ?_⟩
  · have h := hlast (by omega)
    have he : ((2:ℤ) - 1).toNat = 1 := by decide
    rwa [he] at h
  · exact htail 2 (by decide) (by decide)

/-! Claim C3: epoch indexing. -/

/-- C3 (amended): forward raises the index error exactly when epoch is
    outside [-numEpochs, numEpochs); a negative epoch in [-numEpochs, -1]
    silently wraps around, giving the same result as epoch + numEpochs; an
    epoch in [0, numEpochs) makes the schedule lookup succeed with
    schedule[epoch]. -/
theorem c3_epoch_amended (dl : DistillLoss) (s t : Mat) (epoch : ℤ) :
    (epoch < -(dl.teacher_temp_schedule.length : ℤ) ∨
        (dl.teacher_temp_schedule.length : ℤ) ≤ epoch →
      dl.forward s t epoch = .error .epochIndexError) ∧
    (-(dl.teacher_temp_schedule.length : ℤ) ≤ epoch → epoch < 0 →
      dl.forward s t epoch = dl.forward s t (epoch + dl.teacher_temp_schedule.length)) ∧
    (0 ≤ epoch → epoch < dl.teacher_temp_schedule.length →
      npIndex dl.teacher_temp_schedule epoch =
        .ok (dl.teacher_temp_schedule.getD epoch.toNat 0)) := by
  refine ⟨?_, ?_, ?_⟩
  · intro h
    unfold DistillLoss.forward
    rw [npIndex_out _ _ h]
  · intro h1 h2
    unfold DistillLoss.forward
    rw [npIndex_wrap _ _ h1 h2]
  · intro h1 h2
    exact npIndex_in _ _ h1 h2

/-- C3 (counterexample): epoch = -1 with a two-epoch schedule does not raise
    an index error; the call silently wraps and returns a value. -/
theorem c3_counterexample :
    DistillLoss.forward dlUnit2 [[0, 0], [0, 0]] [[0, 0], [0, 0]] (-1) = .ok 0 ∧
    (Except.ok (0 : ℝ) : Except Err ℝ) ≠ .error .epochIndexError := by
  constructor
  · exact forward_eval_22 dlUnit2 (-1) rfl rfl npIndex_unit2_neg1
  · simp

/-- C3 (witness): the amended epoch theorem instantiated concretely: epoch 5
    on a two-entry schedule errors, epoch -1 equals epoch 1, and the
    in-range lookup at epoch 1 returns schedule[1]. -/
theorem c3_epoch_witness :
    DistillLoss.forward dlC3W [] [] 5 = .error .epochIndexError ∧
    DistillLoss.forward dlC3W [] [] (-1) = DistillLoss.forward dlC3W [] [] 1 ∧
    npIndex dlC3W.teacher_temp_schedule 1 = .ok (1/25) := by
  refine ⟨(c3_epoch_amended dlC3W [] [] 5).1 (by right; decide), ?_, ?_⟩
  · have h := (c3_epoch_amended dlC3W [] [] (-1)).2.1 (by decide) (by decide)
    have he : ((-1:ℤ) + ((dlC3W.teacher_temp_schedule.length : ℕ) : ℤ)) = 1 := by decide
    rwa [he] at h
  · have h := (c3_epoch_amended dlC3W [] [] 1).2.2 (by decide) (by decide)
    have he : dlC3W.teacher_temp_schedule.getD ((1:ℤ)).toNat 0 = 1/25 := rfl
    rwa [he] at h

/-! Claim C6: construction rejects warmup longer than the training run. -/

/-- C6: whenever warmupTeacherTempEpochs exceeds numEpochs, construction
    fails with numpy's ValueError (np.ones of a negative length), rather than
    producing a truncated or empty schedule. -/
theorem c6_init_rejects (w E : ℤ) (n : ℕ) (a b st : ℚ) (h : E < w) :
    DistillLoss.init w E n a b st = .error .valueError := by
  unfold DistillLoss.init
  by_cases hw : w < 0
  · simp [hw]
  · have hneg : E - w < 0 := by omega
    simp [hw, hneg]

/-- C6 (witness): construction with warmup 3 and 2 epochs fails. -/
theorem c6_init_rejects_witness :
    DistillLoss.init 3 2 2 (7/100) (1/25) (1/10) = .error .valueError :=
  c6_init_rejects 3 2 2 (7/100) (1/25) (1/10) (by omega)

/-! Claim C7: the loop visits exactly n * (n - 1) ordered pairs. -/

theorem pairsList_length (n : ℕ) : (pairsList n).length = n * (n - 1) := by
  unfold pairsList
  rw [List.length_flatMap]
  have key : ∀ i ∈ List.range n,
      (List.length ∘ fun i => ((List.range n).filter (fun j => j ≠ i)).map (fun j => (i, j))) i
        = n - 1 := by
    intro i hi
    simp only [Function.comp_apply, List.length_map]
    exact length_filter_ne_range n i (by simpa using hi)
  rw [List.map_congr_left key, List.map_const', List.sum_replicate, List.length_range,
    smul_eq_mul]

theorem mem_pairsList (n : ℕ) (p : ℕ × ℕ) :
    p ∈ pairsList n ↔ p.1 < n ∧ p.2 < n ∧ p.1 ≠ p.2 := by
  simp only [pairsList, List.mem_flatMap, List.mem_map, List.mem_filter, List.mem_range,
    decide_eq_true_eq]
  constructor
  · rintro ⟨i, hi, j, ⟨hj, hne⟩, rfl⟩
    exact ⟨hi, hj, fun hc => hne hc.symm⟩
  · rintro ⟨h1, h2, h3⟩
    exact ⟨p.1, h1, p.2, ⟨h2, fun hc => h3 hc.symm⟩, rfl⟩

/-- C7: for every crop count n the pair list the double loop iterates over
    has exactly n * (n - 1) entries, and it contains precisely the ordered
    pairs (i, j) with i, j < n and i distinct from j: every self-pair is
    skipped, every other ordered pair contributes exactly one term. -/
theorem c7_pair_count (n : ℕ) :
    (pairsList n).length = n * (n - 1) ∧
    (∀ p : ℕ × ℕ, p ∈ pairsList n ↔ p.1 < n ∧ p.2 < n ∧ p.1 ≠ p.2) :=
  ⟨pairsList_length n, mem_pairsList n⟩

/-! Claim C1: the accumulated term is kl_div, not the claimed cross-entropy. -/

theorem specterm_eval :
    specCrossEntropyTerm [[-Real.log 2, -Real.log 2]] [[1/2, 1/2]] = Real.log 2 := by
  unfold specCrossEntropyTerm
  norm_num
  ring

theorem specforward_eval :
    specForward dlUnit [[0, 0], [0, 0]] [[0, 0], [0, 0]] 0 = .ok (Real.log 2) := by
  simp only [specForward, dlUnit, npIndex_unit0]
  have hstu : ([[0, 0], [0, 0]] : Mat).map (fun r => r.map (fun x => x / ((1 : ℚ) : ℝ)))
      = [[0, 0], [0, 0]] := by norm_num
  have htea : ([[0, 0], [0, 0]] : Mat).map
      (fun r => softmaxRow (r.map (fun x => x / ((1 : ℚ) : ℝ))))
      = [[1/2, 1/2], [1/2, 1/2]] := by
    norm_num [softmax_zero2]
  rw [hstu, htea, chunk2_two, chunk2_two, pairs_two]
  norm_num [logsoftmax_zero2, specterm_eval]

/-- C1 (code bug): on the two-crop batch with all-zero logits and unit
    temperatures, F.kl_div makes forward return 0, while the spec's
    cross-entropy formula — which the source's own inline comment claims the
    code computes — gives log 2.  F.kl_div computes
    target * (log target - input), the true KL divergence, which differs from
    the claimed sum of -target * log_softmax(student) by the teacher-entropy
    term. -/
theorem c1_kl_not_crossentropy :
    DistillLoss.forward dlUnit [[0, 0], [0, 0]] [[0, 0], [0, 0]] 0 = .ok 0 ∧
    specForward dlUnit [[0, 0], [0, 0]] [[0, 0], [0, 0]] 0 = .ok (Real.log 2) ∧
    Real.log 2 ≠ 0 := by
  refine ⟨forward_eval_22 dlUnit 0 rfl rfl npIndex_unit0, specforward_eval, ?_⟩
  exact ne_of_gt (Real.log_pos (by norm_num))

/-! Claim C4: shape handling of non-divisible row counts. -/

theorem broadcastPairs_none (xs : List α) (ys : List β)
    (h1 : xs.length ≠ ys.length) (h2 : xs.length ≠ 1) (h3 : ys.length ≠ 1) :
    broadcastPairs xs ys = none := by
  unfold broadcastPairs
  rw [if_neg h1]
  rcases xs with _ | ⟨a, _ | ⟨a2, as⟩⟩
  · rcases ys with _ | ⟨b, _ | ⟨b2, bs⟩⟩
    · exact absurd rfl h1
    · exact absurd rfl h3
    · rfl
  · exact absurd rfl h2
  · rcases ys with _ | ⟨b, _ | ⟨b2, bs⟩⟩
    · rfl
    · exact absurd rfl h3
    · rfl

theorem klDiv_shapeError (A B : Mat)
    (h1 : A.length ≠ B.length) (h2 : A.length ≠ 1) (h3 : B.length ≠ 1) :
    klDivBatchmean A B = .error .shapeError := by
  unfold klDivBatchmean
  rw [broadcastPairs_none A B h1 h2 h3]

theorem chunkTorch_two_odd (xs : List α) (r : ℕ) (hlen : xs.length = r)
    (h5 : 5 ≤ r) (hodd : r % 2 = 1) :
    ∃ A B, chunkTorch 2 xs = [A, B] ∧ A.length = (r + 1) / 2 ∧ B.length = (r - 1) / 2 := by
  refine ⟨xs.take ((r + 1) / 2), (xs.drop ((r + 1) / 2)).take ((r + 1) / 2), ?_, ?_, ?_⟩
  · unfold chunkTorch
    rw [hlen]
    have hc : (r + 2 - 1) / 2 = (r + 1) / 2 := by omega
    have hcz : ¬ ((r + 2 - 1) / 2 = 0) := by omega
    rw [if_neg hcz]
    have hnum : (r + (r + 2 - 1) / 2 - 1) / ((r + 2 - 1) / 2) = 2 := by
      apply Nat.div_eq_of_lt_le
      · omega
      · omega
    rw [hnum]
    have hr2 : List.range 2 = [0, 1] := by decide
    rw [hr2]
    simp only [List.map_cons, List.map_nil, Nat.zero_mul, Nat.one_mul, List.drop_zero, hc]
  · rw [List.length_take, hlen]
    omega
  · rw [List.length_take, List.length_drop, hlen]
    omega

/-- C4 (amended): a non-divisible row count is not always rejected.  When
    torch.chunk splits the rows into two blocks whose sizes differ and
    neither block has exactly one row (any odd row count r >= 5 with two
    crops), the first kl_div raises a shape error; but when the trailing
    block has exactly one row, broadcasting applies and the call silently
    computes a value — see the counterexample below. -/
theorem c4_shape_amended (dl : DistillLoss) (s t : Mat) (epoch : ℤ) (r : ℕ)
    (hn : dl.n_crops = 2)
    (hs : s.length = r) (ht : t.length = r) (h5 : 5 ≤ r) (hodd : r % 2 = 1)
    (he1 : 0 ≤ epoch) (he2 : epoch < dl.teacher_temp_schedule.length) :
    dl.forward s t epoch = .error .shapeError := by
  simp only [DistillLoss.forward, hn, npIndex_in _ _ he1 he2]
  obtain ⟨A, A2, hsc, hA1, hA2⟩ :=
    chunkTorch_two_odd (s.map (fun rr => rr.map (fun x => x / (dl.student_temp : ℝ)))) r
      (by rw [List.length_map]; exact hs) h5 hodd
  obtain ⟨B, B2, htc, hB1, hB2⟩ :=
    chunkTorch_two_odd (t.map (fun rr =>
      softmaxRow (rr.map (fun x => x / ((dl.teacher_temp_schedule.getD epoch.toNat 0 : ℚ) : ℝ))))) r
      (by rw [List.length_map]; exact ht) h5 hodd
  rw [hsc, htc, pairs_two]
  have hterm : pairTerm [A, A2] [B, B2] (0, 1) = .error .shapeError := by
    simp only [pairTerm, tupleGet, List.getElem?_cons_zero, List.getElem?_cons_succ]
    apply klDiv_shapeError
    · rw [List.length_map, hA1, hB2]
      omega
    · rw [List.length_map, hA1]
      omega
    · rw [hB2]
      omega
  simp only [accumLoss, hterm]

theorem kldiv_zero_2v1 :
    klDivBatchmean [[-Real.log 2, -Real.log 2], [-Real.log 2, -Real.log 2]]
      [[1/2, 1/2]] = .ok 0 := by
  simp only [klDivBatchmean]
  norm_num [broadcastAll, broadcastPairs, klpoint_half]

theorem kldiv_zero_1v2 :
    klDivBatchmean [[-Real.log 2, -Real.log 2]]
      [[1/2, 1/2], [1/2, 1/2]] = .ok 0 := by
  simp only [klDivBatchmean]
  norm_num [broadcastAll, broadcastPairs, klpoint_half]

/-- C4 (counterexample): three rows with two crops — not divisible — is
    silently processed: chunk produces blocks of two rows and one row, the
    one-row block broadcasts inside kl_div, and forward returns a value
    instead of failing. -/
theorem c4_counterexample :
    DistillLoss.forward dlUnit [[0, 0], [0, 0], [0, 0]] [[0, 0], [0, 0], [0, 0]] 0 = .ok 0 ∧
    (Except.ok (0 : ℝ) : Except Err ℝ) ≠ .error .shapeError := by
  constructor
  · simp only [DistillLoss.forward, dlUnit, npIndex_unit0]
    have hstu : ([[0, 0], [0, 0], [0, 0]] : Mat).map
        (fun r => r.map (fun x => x / ((1 : ℚ) : ℝ)))
        = [[0, 0], [0, 0], [0, 0]] := by norm_num
    have htea : ([[0, 0], [0, 0], [0, 0]] : Mat).map
        (fun r => softmaxRow (r.map (fun x => x / ((1 : ℚ) : ℝ))))
        = [[1/2, 1/2], [1/2, 1/2], [1/2, 1/2]] := by
      norm_num [softmax_zero2]
    rw [hstu, htea, chunk2_three, chunk2_three, pairs_two]
    have hterm : pairTerm [[[0, 0], [0, 0]], [[0, 0]]] [[[1/2, 1/2], [1/2, 1/2]], [[1/2, 1/2]]]
        (0, 1) = .ok 0 := by
      simp only [pairTerm, tupleGet, List.getElem?_cons_zero, List.getElem?_cons_succ]
      norm_num [logsoftmax_zero2, kldiv_zero_2v1]
    have hterm2 : pairTerm [[[0, 0], [0, 0]], [[0, 0]]] [[[1/2, 1/2], [1/2, 1/2]], [[1/2, 1/2]]]
        (1, 0) = .ok 0 := by
      simp only [pairTerm, tupleGet, List.getElem?_cons_zero, List.getElem?_cons_succ]
      norm_num [logsoftmax_zero2, kldiv_zero_1v2]
    simp only [accumLoss, hterm, hterm2]
    norm_num
  · simp

/-- C4 (witness): the amended shape theorem instantiated at five one-column
    rows with two crops: the call fails with the shape error. -/
theorem c4_shape_witness :
    DistillLoss.forward dlUnit [[0], [0], [0], [0], [0]] [[0], [0], [0], [0], [0]] 0 =
      .error .shapeError :=
  c4_shape_amended dlUnit _ _ 0 5 rfl rfl rfl (by omega) (by omega) (by omega)
    (by simp [dlUnit])

/-! Claim C9: the returned loss is nonnegative. -/


theorem list_sum_map_sub (l : List α) (f g : α → ℝ) :
    (l.map (fun a => f a - g a)).sum = (l.map f).sum - (l.map g).sum := by
  induction l with
  | nil => simp
  | cons a tl ih =>
    simp only [List.map_cons, List.sum_cons, ih]
    ring

theorem sumExp_pos (x : List ℝ) (hx : x ≠ []) : 0 < (x.map Real.exp).sum := by
  rcases x with _ | ⟨a, tl⟩
  · exact absurd rfl hx
  · simp only [List.map_cons, List.sum_cons]
    have h1 : 0 < Real.exp a := Real.exp_pos a
    have h2 : 0 ≤ (tl.map Real.exp).sum :=
      List.sum_nonneg (fun v hv => by
        obtain ⟨u, hu, rfl⟩ := List.mem_map.mp hv
        exact le_of_lt (Real.exp_pos u))
    linarith

theorem gibbs_row (x y : List ℝ) (hlen : x.length = y.length) :
    0 ≤ (((logSoftmaxRow x).zip (softmaxRow y)).map (fun q => klPoint q.1 q.2)).sum := by
  rcases eq_or_ne x [] with hx | hx
  · subst hx
    have hy : y = [] := List.length_eq_zero.mp hlen.symm
    subst hy
    simp [logSoftmaxRow, softmaxRow]
  · have hy : y ≠ [] := by
      intro h
      subst h
      exact hx (List.length_eq_zero.mp hlen)
    have hSxpos : 0 < (x.map Real.exp).sum := sumExp_pos x hx
    have hSypos : 0 < (y.map Real.exp).sum := sumExp_pos y hy
    set Sx := (x.map Real.exp).sum with hSx
    set Sy := (y.map Real.exp).sum with hSy
    unfold logSoftmaxRow softmaxRow
    rw [List.zip_map, List.map_map]
    have key : ∀ q ∈ x.zip y,
        (fun q : ℝ × ℝ => Real.exp q.2 / Sy - Real.exp (q.1 - Real.log Sx)) q ≤
        ((fun q : ℝ × ℝ => klPoint q.1 q.2) ∘
          Prod.map (fun xi => xi - Real.log Sx) (fun yi => Real.exp yi / Sy)) q := by
      intro q hq
      simp only [Function.comp_apply, Prod.map]
      set a' := q.1 - Real.log Sx with ha'
      set b' := Real.exp q.2 / Sy with hb'def
      have hb' : 0 < b' := div_pos (Real.exp_pos _) hSypos
      unfold klPoint
      rw [if_pos hb']
      have hlog : Real.log (Real.exp a' / b') ≤ Real.exp a' / b' - 1 :=
        Real.log_le_sub_one_of_pos (div_pos (Real.exp_pos _) hb')
      rw [Real.log_div (Real.exp_ne_zero _) (ne_of_gt hb'), Real.log_exp] at hlog
      have hmul := mul_le_mul_of_nonneg_left hlog (le_of_lt hb')
      have hr : b' * (Real.exp a' / b' - 1) = Real.exp a' - b' := by
        field_simp
      rw [hr] at hmul
      have h3 : b' * (Real.log b' - a') = -(b' * (a' - Real.log b')) := by ring
      rw [h3]
      linarith
    refine le_trans ?_ (List.sum_le_sum key)
    rw [list_sum_map_sub]
    have h2 : ((x.zip y).map (fun q : ℝ × ℝ => Real.exp q.2 / Sy)).sum = 1 := by
      have hm : (x.zip y).map (fun q : ℝ × ℝ => Real.exp q.2 / Sy)
          = ((x.zip y).map Prod.snd).map (fun v => Real.exp v / Sy) := by
        rw [List.map_map]
        rfl
      rw [hm, List.map_snd_zip x y (le_of_eq hlen.symm)]
      have hd : y.map (fun v => Real.exp v / Sy) = y.map (fun v => Real.exp v * Sy⁻¹) := by
        simp [div_eq_mul_inv]
      rw [hd, List.sum_map_mul_right, ← hSy, mul_inv_cancel₀ (ne_of_gt hSypos)]
    have h3 : ((x.zip y).map (fun q : ℝ × ℝ => Real.exp (q.1 - Real.log Sx))).sum = 1 := by
      have hm : (x.zip y).map (fun q : ℝ × ℝ => Real.exp (q.1 - Real.log Sx))
          = ((x.zip y).map Prod.fst).map (fun v => Real.exp (v - Real.log Sx)) := by
        rw [List.map_map]
        rfl
      rw [hm, List.map_fst_zip x y (le_of_eq hlen)]
      have hd : x.map (fun v => Real.exp (v - Real.log Sx))
          = x.map (fun v => Real.exp v * Sx⁻¹) := by
        apply List.map_congr_left
        intro v hv
        rw [Real.exp_sub, Real.exp_log hSxpos, div_eq_mul_inv]
      rw [hd, List.sum_map_mul_right, ← hSx, mul_inv_cancel₀ (ne_of_gt hSxpos)]
    rw [h2, h3]
    norm_num

theorem broadcastPairs_eq_len (xs : List α) (ys : List β) (h : xs.length = ys.length) :
    broadcastPairs xs ys = some (xs.zip ys) := by
  unfold broadcastPairs
  rw [if_pos h]

theorem broadcastPairs_mem (xs : List α) (ys : List β) (l : List (α × β))
    (h : broadcastPairs xs ys = some l) : ∀ q ∈ l, q.1 ∈ xs ∧ q.2 ∈ ys := by
  unfold broadcastPairs at h
  split at h
  · cases h
    intro q hq
    obtain ⟨q1, q2⟩ := q
    exact List.of_mem_zip hq
  · split at h
    · cases h
      intro q hq
      obtain ⟨y, hy, rfl⟩ := List.mem_map.mp hq
      exact ⟨List.mem_singleton_self _, hy⟩
    · cases h
      intro q hq
      obtain ⟨z, hz, rfl⟩ := List.mem_map.mp hq
      exact ⟨hz, List.mem_singleton_self _⟩
    · exact absurd h (by simp)

theorem broadcastAll_sound (l : List (List α × List β))
    (rows : List (List (α × β))) (h : broadcastAll l = some rows) :
    ∀ row ∈ rows, ∃ rc ∈ l, broadcastPairs rc.1 rc.2 = some row := by
  induction l generalizing rows with
  | nil =>
    simp only [broadcastAll] at h
    cases h
    intro row hrow
    simp at hrow
  | cons rc rest ih =>
    unfold broadcastAll at h
    cases hb : broadcastPairs rc.1 rc.2 with
    | none => rw [hb] at h; simp at h
    | some row0 =>
      cases hr : broadcastAll rest with
      | none => rw [hb, hr] at h; simp at h
      | some rows0 =>
        rw [hb, hr] at h
        cases h
        intro row hrow
        rcases List.mem_cons.mp hrow with hhead | htail
        · exact ⟨rc, List.mem_cons_self _ _, by rw [hb, hhead]⟩
        · obtain ⟨rc2, hrc2, hb2⟩ := ih rows0 hr row htail
          exact ⟨rc2, List.mem_cons_of_mem _ hrc2, hb2⟩

theorem klDiv_nonneg (A B : Mat) (C : ℕ) (w : ℝ)
    (hA : ∀ a ∈ A, ∃ x : List ℝ, a = logSoftmaxRow x ∧ x.length = C)
    (hB : ∀ b ∈ B, ∃ y : List ℝ, b = softmaxRow y ∧ y.length = C)
    (h : klDivBatchmean A B = .ok w) : 0 ≤ w := by
  unfold klDivBatchmean at h
  cases h1 : broadcastPairs A B with
  | none => rw [h1] at h; simp at h
  | some rowPairs =>
    simp only [h1] at h
    cases h2 : broadcastAll rowPairs with
    | none => simp only [h2] at h; exact absurd h (by simp)
    | some rows =>
      simp only [h2] at h
      have hw : w = (rows.map (fun row => (row.map (fun q => klPoint q.1 q.2)).sum)).sum
          / (A.length : ℝ) := (Except.ok.inj h).symm
      rw [hw]
      apply div_nonneg _ (Nat.cast_nonneg _)
      apply List.sum_nonneg
      intro rs hrs
      obtain ⟨rowsum, hrow, rfl⟩ := List.mem_map.mp hrs
      obtain ⟨rc, hrc, hbp⟩ := broadcastAll_sound rowPairs rows h2 rowsum hrow
      have hmem := broadcastPairs_mem A B rowPairs h1 rc hrc
      obtain ⟨x, hx, hxl⟩ := hA rc.1 hmem.1
      obtain ⟨y, hy, hyl⟩ := hB rc.2 hmem.2
      have hlen2 : rc.1.length = rc.2.length := by
        rw [hx, hy]
        unfold logSoftmaxRow softmaxRow
        rw [List.length_map, List.length_map, hxl, hyl]
      rw [broadcastPairs_eq_len rc.1 rc.2 hlen2] at hbp
      have hrs2 : rowsum = (logSoftmaxRow x).zip (softmaxRow y) := by
        have := Option.some.inj hbp
        rw [← this, hx, hy]
      rw [hrs2]
      exact gibbs_row x y (by rw [hxl, hyl])

theorem chunkTorch_mem {n : ℕ} {xs : List α} {mat : List α} {a : α}
    (hmat : mat ∈ chunkTorch n xs) (ha : a ∈ mat) : a ∈ xs := by
  simp only [chunkTorch] at hmat
  split at hmat
  · simp at hmat
  · obtain ⟨k, hk, rfl⟩ := List.mem_map.mp hmat
    exact List.mem_of_mem_drop (List.mem_of_mem_take ha)

theorem tupleGet_ok_mem {xs : List α} {i : ℕ} {a : α}
    (h : tupleGet xs i = .ok a) : a ∈ xs := by
  unfold tupleGet at h
  cases hg : xs[i]? with
  | none => rw [hg] at h; simp at h
  | some b =>
    rw [hg] at h
    have hab : b = a := Except.ok.inj h
    subst hab
    exact List.getElem?_mem hg

theorem accumLoss_nonneg (cs ts : List Mat) :
    ∀ (l : List (ℕ × ℕ)) (acc v : ℝ), 0 ≤ acc →
      (∀ p ∈ l, ∀ w, pairTerm cs ts p = .ok w → 0 ≤ w) →
      accumLoss cs ts l acc = .ok v → 0 ≤ v := by
  intro l
  induction l with
  | nil =>
    intro acc v hacc hterm h
    unfold accumLoss at h
    have hv : acc = v := Except.ok.inj h
    subst hv
    exact hacc
  | cons p rest ih =>
    intro acc v hacc hterm h
    unfold accumLoss at h
    cases hp : pairTerm cs ts p with
    | error e => rw [hp] at h; exact absurd h (by simp)
    | ok w =>
      rw [hp] at h
      exact ih (acc + w) v
        (add_nonneg hacc (hterm p (List.mem_cons_self _ _) w hp))
        (fun q hq => hterm q (List.mem_cons_of_mem _ hq)) h

/-- C9: for every call whose student and teacher rows all have the same
    class count (the valid-shape precondition) and which returns a value,
    that value is nonnegative.  The teacher rows are genuine softmax
    distributions and the student rows genuine log-softmax rows, so every
    accumulated kl_div term is a true KL divergence and Gibbs' inequality
    applies. -/
theorem c9_loss_nonneg (dl : DistillLoss) (s t : Mat) (epoch : ℤ) (C : ℕ) (v : ℝ)
    (hs : ∀ row ∈ s, row.length = C) (ht : ∀ row ∈ t, row.length = C)
    (hok : dl.forward s t epoch = .ok v) : 0 ≤ v := by
  unfold DistillLoss.forward at hok
  cases hnp : npIndex dl.teacher_temp_schedule epoch with
  | error e => simp only [hnp] at hok; exact absurd hok (by simp)
  | ok temp =>
    simp only [hnp] at hok
    cases hacc : accumLoss
        (chunkTorch dl.n_crops (s.map (fun r => r.map (fun x => x / (dl.student_temp : ℝ)))))
        (chunkTorch dl.n_crops (t.map (fun r => softmaxRow (r.map (fun x => x / (temp : ℝ))))))
        (pairsList dl.n_crops) 0 with
    | error e => simp only [hacc] at hok; exact absurd hok (by simp)
    | ok loss =>
      simp only [hacc] at hok
      by_cases hz : dl.n_crops * (dl.n_crops - 1) = 0
      · rw [if_pos hz] at hok
        exact absurd hok (by simp)
      · rw [if_neg hz] at hok
        have hv : loss / ((dl.n_crops * (dl.n_crops - 1) : ℕ) : ℝ) = v := Except.ok.inj hok
        have hloss : 0 ≤ loss := by
          apply accumLoss_nonneg _ _ _ 0 loss le_rfl _ hacc
          intro p hp w hw
          unfold pairTerm at hw
          cases hg1 : tupleGet (chunkTorch dl.n_crops
              (s.map (fun r => r.map (fun x => x / (dl.student_temp : ℝ))))) p.1 with
          | error e => rw [hg1] at hw; exact absurd hw (by simp)
          | ok si =>
            simp only [hg1] at hw
            cases hg2 : tupleGet (chunkTorch dl.n_crops
                (t.map (fun r => softmaxRow (r.map (fun x => x / (temp : ℝ)))))) p.2 with
            | error e => rw [hg2] at hw; exact absurd hw (by simp)
            | ok tj =>
              simp only [hg2] at hw
              apply klDiv_nonneg _ _ C w _ _ hw
              · intro a ha
                obtain ⟨row, hrow, rfl⟩ := List.mem_map.mp ha
                have hrow2 : row ∈ s.map (fun r => r.map (fun x => x / (dl.student_temp : ℝ))) :=
                  chunkTorch_mem (tupleGet_ok_mem hg1) hrow
                obtain ⟨orig, horig, rfl⟩ := List.mem_map.mp hrow2
                exact ⟨orig.map (fun x => x / (dl.student_temp : ℝ)), rfl,
                  by rw [List.length_map]; exact hs orig horig⟩
              · intro b hb
                have hb2 : b ∈ t.map (fun r => softmaxRow (r.map (fun x => x / (temp : ℝ)))) :=
                  chunkTorch_mem (tupleGet_ok_mem hg2) hb
                obtain ⟨orig, horig, rfl⟩ := List.mem_map.mp hb2
                exact ⟨orig.map (fun x => x / (temp : ℝ)), rfl,
                  by rw [List.length_map]; exact ht orig horig⟩
        rw [← hv]
        exact div_nonneg hloss (Nat.cast_nonneg _)

/-- C9 (witness): the nonnegativity theorem applied to the all-zero two-crop
    batch, whose loss evaluates to 0. -/
theorem c9_loss_nonneg_witness :
    DistillLoss.forward dlUnit [[0, 0], [0, 0]] [[0, 0], [0, 0]] 0 = .ok 0 ∧ (0 : ℝ) ≤ 0 := by
  have heval := forward_eval_22 dlUnit 0 rfl rfl npIndex_unit0
  refine ⟨heval, c9_loss_nonneg dlUnit _ _ 0 2 0 ?_ ?_ heval⟩
  · intro row hrow
    simp only [List.mem_cons, List.not_mem_nil, or_false] at hrow
    rcases hrow with rfl | rfl <;> rfl
  · intro row hrow
    simp only [List.mem_cons, List.not_mem_nil, or_false] at hrow
    rcases hrow with rfl | rfl <;> rfl

/-! Claim C10: per-row shift invariance. -/

theorem softmaxRow_shift (x : List ℝ) (d : ℝ) :
    softmaxRow (x.map (fun v => v + d)) = softmaxRow x := by
  unfold softmaxRow
  rw [List.map_map, List.map_map]
  have hc : (Real.exp ∘ fun v => v + d) = fun v => Real.exp v * Real.exp d := by
    funext v
    simp [Real.exp_add]
  have hsum : (x.map (Real.exp ∘ fun v => v + d)).sum = (x.map Real.exp).sum * Real.exp d := by
    rw [hc, List.sum_map_mul_right]
  rw [hsum]
  apply List.map_congr_left
  intro v hv
  simp only [Function.comp_apply]
  rw [Real.exp_add, mul_div_mul_right _ _ (Real.exp_ne_zero d)]

theorem logSoftmaxRow_shift (x : List ℝ) (d : ℝ) :
    logSoftmaxRow (x.map (fun v => v + d)) = logSoftmaxRow x := by
  rcases eq_or_ne x [] with hx | hx
  · subst hx
    rfl
  · unfold logSoftmaxRow
    rw [List.map_map, List.map_map]
    have hc : (Real.exp ∘ fun v => v + d) = fun v => Real.exp v * Real.exp d := by
      funext v
      simp [Real.exp_add]
    have hsum : (x.map (Real.exp ∘ fun v => v + d)).sum = (x.map Real.exp).sum * Real.exp d := by
      rw [hc, List.sum_map_mul_right]
    rw [hsum]
    have hpos : 0 < (x.map Real.exp).sum := sumExp_pos x hx
    rw [Real.log_mul (ne_of_gt hpos) (Real.exp_ne_zero d), Real.log_exp]
    apply List.map_congr_left
    intro v hv
    simp only [Function.comp_apply]
    ring

theorem chunkTorch_map (n : ℕ) (f : α → β) (xs : List α) :
    chunkTorch n (xs.map f) = (chunkTorch n xs).map (List.map f) := by
  unfold chunkTorch
  simp only [List.length_map]
  split
  · simp
  · rw [List.map_map]
    apply List.map_congr_left
    intro k hk
    simp only [Function.comp_apply]
    rw [← List.map_drop, ← List.map_take]

theorem pairTerm_congr (cs1 cs2 ts : List Mat)
    (hlen : cs1.length = cs2.length)
    (hmap : cs1.map (List.map logSoftmaxRow) = cs2.map (List.map logSoftmaxRow))
    (p : ℕ × ℕ) : pairTerm cs1 ts p = pairTerm cs2 ts p := by
  unfold pairTerm tupleGet
  cases h1 : cs1[p.1]? with
  | none =>
    have h2 : cs2[p.1]? = none := by
      rw [List.getElem?_eq_none_iff] at h1 ⊢
      rwa [← hlen]
    simp only [h2]
  | some si =>
    have hex : ∃ si2, cs2[p.1]? = some si2 ∧ si.map logSoftmaxRow = si2.map logSoftmaxRow := by
      have hm1 : (cs1.map (List.map logSoftmaxRow))[p.1]? = some (si.map logSoftmaxRow) := by
        rw [List.getElem?_map, h1]
        rfl
      rw [hmap, List.getElem?_map] at hm1
      cases h2 : cs2[p.1]? with
      | none => rw [h2] at hm1; simp at hm1
      | some si2 =>
        rw [h2] at hm1
        simp only [Option.map_some'] at hm1
        exact ⟨si2, rfl, (Option.some.inj hm1).symm⟩
    obtain ⟨si2, h2, hsim⟩ := hex
    simp only [h2]
    cases h3 : ts[p.2]? with
    | none => simp only [h3]
    | some tj =>
      simp only [h3]
      rw [hsim]

theorem accumLoss_congr (cs1 cs2 ts : List Mat)
    (hterm : ∀ p, pairTerm cs1 ts p = pairTerm cs2 ts p) :
    ∀ (l : List (ℕ × ℕ)) (acc : ℝ), accumLoss cs1 ts l acc = accumLoss cs2 ts l acc := by
  intro l
  induction l with
  | nil => intro acc; rfl
  | cons p rest ih =>
    intro acc
    unfold accumLoss
    rw [hterm p]
    cases pairTerm cs2 ts p with
    | error e => rfl
    | ok w => exact ih (acc + w)

theorem chunkTorch_logsm_scale (n : ℕ) (sc : List ℝ → List ℝ) (s : Mat) :
    (chunkTorch n (s.map sc)).map (List.map logSoftmaxRow)
      = chunkTorch n (s.map (fun r => logSoftmaxRow (sc r))) := by
  rw [chunkTorch_map, chunkTorch_map, List.map_map]
  apply List.map_congr_left
  intro m hm
  simp only [Function.comp_apply, List.map_map]
  rfl

theorem forward_student_congr (dl : DistillLoss) (s1 s2 t : Mat) (epoch : ℤ)
    (hlen : s1.length = s2.length)
    (hmap : s1.map (fun r => logSoftmaxRow (r.map (fun x => x / (dl.student_temp : ℝ)))) =
            s2.map (fun r => logSoftmaxRow (r.map (fun x => x / (dl.student_temp : ℝ))))) :
    dl.forward s1 t epoch = dl.forward s2 t epoch := by
  have hchlen : (chunkTorch dl.n_crops
      (s1.map (fun r => r.map (fun x => x / (dl.student_temp : ℝ))))).length =
      (chunkTorch dl.n_crops
        (s2.map (fun r => r.map (fun x => x / (dl.student_temp : ℝ))))).length := by
    simp only [chunkTorch, List.length_map, hlen]
    split
    · rfl
    · simp only [List.length_map]
  have hchmap : (chunkTorch dl.n_crops
        (s1.map (fun r => r.map (fun x => x / (dl.student_temp : ℝ))))).map
          (List.map logSoftmaxRow) =
      (chunkTorch dl.n_crops
        (s2.map (fun r => r.map (fun x => x / (dl.student_temp : ℝ))))).map
          (List.map logSoftmaxRow) := by
    rw [chunkTorch_logsm_scale, chunkTorch_logsm_scale, hmap]
  have key : ∀ (ts : List Mat), accumLoss
      (chunkTorch dl.n_crops (s1.map (fun r => r.map (fun x => x / (dl.student_temp : ℝ)))))
      ts (pairsList dl.n_crops) 0 =
      accumLoss
        (chunkTorch dl.n_crops (s2.map (fun r => r.map (fun x => x / (dl.student_temp : ℝ)))))
        ts (pairsList dl.n_crops) 0 :=
    fun ts => accumLoss_congr _ _ ts (pairTerm_congr _ _ ts hchlen hchmap) _ _
  simp only [DistillLoss.forward, key]

theorem forward_teacher_congr (dl : DistillLoss) (s t1 t2 : Mat) (epoch : ℤ)
    (hmap : ∀ tempq : ℚ, t1.map (fun r => softmaxRow (r.map (fun x => x / (tempq : ℝ)))) =
            t2.map (fun r => softmaxRow (r.map (fun x => x / (tempq : ℝ))))) :
    dl.forward s t1 epoch = dl.forward s t2 epoch := by
  simp only [DistillLoss.forward, hmap]

theorem shiftRow_length (k : ℕ) (c : ℝ) (M : Mat) : (shiftRow k c M).length = M.length := by
  induction M generalizing k with
  | nil => cases k <;> rfl
  | cons r rs ih =>
    cases k with
    | zero => rfl
    | succ k2 => simp only [shiftRow, List.length_cons, ih]

theorem shiftRow_map_eq {β : Type} (k : ℕ) (c : ℝ) (M : Mat) (g : List ℝ → β)
    (hg : ∀ r : List ℝ, g (r.map (fun v => v + c)) = g r) :
    (shiftRow k c M).map g = M.map g := by
  induction M generalizing k with
  | nil => cases k <;> rfl
  | cons r rs ih =>
    cases k with
    | zero => simp only [shiftRow, List.map_cons, hg]
    | succ k2 => simp only [shiftRow, List.map_cons, ih]

/-- C10: adding one constant to every entry of any single row of the student
    input, or of the teacher input, leaves the result of forward unchanged:
    softmax and log_softmax are invariant under a per-row constant shift, and
    the temperature scaling turns the shift c into the shift c / temperature
    of the scaled row. -/
theorem c10_shift_invariance (dl : DistillLoss) (s t : Mat) (epoch : ℤ) (k : ℕ) (c : ℝ) :
    dl.forward (shiftRow k c s) t epoch = dl.forward s t epoch ∧
    dl.forward s (shiftRow k c t) epoch = dl.forward s t epoch := by
  constructor
  · apply forward_student_congr _ _ _ _ _ (shiftRow_length k c s)
    apply shiftRow_map_eq
    intro r
    have hcomm : (r.map (fun v => v + c)).map (fun x => x / (dl.student_temp : ℝ)) =
        (r.map (fun x => x / (dl.student_temp : ℝ))).map
          (fun v => v + c / (dl.student_temp : ℝ)) := by
      rw [List.map_map, List.map_map]
      apply List.map_congr_left
      intro v hv
      simp only [Function.comp_apply]
      ring
    rw [hcomm, logSoftmaxRow_shift]
  · apply forward_teacher_congr
    intro tempq
    apply shiftRow_map_eq
    intro r
    have hcomm : (r.map (fun v => v + c)).map (fun x => x / (tempq : ℝ)) =
        (r.map (fun x => x / (tempq : ℝ))).map (fun v => v + c / (tempq : ℝ)) := by
      rw [List.map_map, List.map_map]
      apply List.map_congr_left
      intro v hv
      simp only [Function.comp_apply]
      ring
    rw [hcomm, softmaxRow_shift]

/-! Claim C5: the teacher path is detached from the gradient. -/

theorem dSum_tangent (l : List Dual) (h : ∀ x ∈ l, x.2 = 0) : (dSum l).2 = 0 := by
  unfold dSum
  simp only
  apply List.sum_eq_zero
  intro y hy
  obtain ⟨x, hx, rfl⟩ := List.mem_map.mp hy
  exact h x hx

theorem dDiv_tangent (a b : Dual) (ha : a.2 = 0) (hb : b.2 = 0) : (dDiv a b).2 = 0 := by
  unfold dDiv
  simp [ha, hb]

theorem dExp_tangent (a : Dual) (ha : a.2 = 0) : (dExp a).2 = 0 := by
  unfold dExp
  simp [ha]

theorem dLog_tangent (a : Dual) (ha : a.2 = 0) : (dLog a).2 = 0 := by
  unfold dLog
  simp [ha]

theorem dSub_tangent (a b : Dual) (ha : a.2 = 0) (hb : b.2 = 0) : (dSub a b).2 = 0 := by
  unfold dSub
  simp [ha, hb]

theorem dMul_tangent (a b : Dual) (ha : a.2 = 0) (hb : b.2 = 0) : (dMul a b).2 = 0 := by
  unfold dMul
  simp [ha, hb]

theorem klPointD_tangent (a b : Dual) (ha : a.2 = 0) (hb : b.2 = 0) :
    (klPointD a b).2 = 0 := by
  unfold klPointD
  split
  · exact dMul_tangent _ _ hb (dSub_tangent _ _ (dLog_tangent _ hb) ha)
  · rfl

theorem logSoftmaxRowD_tangent (r : List Dual) (hr : ∀ x ∈ r, x.2 = 0) :
    ∀ y ∈ logSoftmaxRowD r, y.2 = 0 := by
  intro y hy
  unfold logSoftmaxRowD at hy
  obtain ⟨x, hx, rfl⟩ := List.mem_map.mp hy
  apply dSub_tangent _ _ (hr x hx)
  apply dLog_tangent
  apply dSum_tangent
  intro z hz
  obtain ⟨u, hu, rfl⟩ := List.mem_map.mp hz
  exact dExp_tangent u (hr u hu)

theorem klDivD_tangent (A B : DMat) (v : Dual)
    (hA : ∀ row ∈ A, ∀ x ∈ row, x.2 = 0) (hB : ∀ row ∈ B, ∀ x ∈ row, x.2 = 0)
    (h : klDivBatchmeanD A B = .ok v) : v.2 = 0 := by
  unfold klDivBatchmeanD at h
  cases h1 : broadcastPairs A B with
  | none => rw [h1] at h; simp at h
  | some rowPairs =>
    simp only [h1] at h
    cases h2 : broadcastAll rowPairs with
    | none => simp only [h2] at h; exact absurd h (by simp)
    | some rows =>
      simp only [h2] at h
      have hv : dDiv (dSum (rows.map (fun row => dSum (row.map (fun q => klPointD q.1 q.2)))))
          (dConst (A.length : ℝ)) = v := Except.ok.inj h
      rw [← hv]
      apply dDiv_tangent _ _ _ rfl
      apply dSum_tangent
      intro rs hrs
      obtain ⟨row, hrow, rfl⟩ := List.mem_map.mp hrs
      apply dSum_tangent
      intro z hz
      obtain ⟨q, hq, rfl⟩ := List.mem_map.mp hz
      obtain ⟨rc, hrc, hbp⟩ := broadcastAll_sound rowPairs rows h2 row hrow
      have hmemrc := broadcastPairs_mem A B rowPairs h1 rc hrc
      have hqmem := broadcastPairs_mem rc.1 rc.2 row hbp q hq
      exact klPointD_tangent _ _ (hA rc.1 hmemrc.1 q.1 hqmem.1) (hB rc.2 hmemrc.2 q.2 hqmem.2)

theorem accumLossD_tangent (cs ts : List DMat) :
    ∀ (l : List (ℕ × ℕ)) (acc v : Dual), acc.2 = 0 →
      (∀ p ∈ l, ∀ w, pairTermD cs ts p = .ok w → w.2 = 0) →
      accumLossD cs ts l acc = .ok v → v.2 = 0 := by
  intro l
  induction l with
  | nil =>
    intro acc v hacc hterm h
    unfold accumLossD at h
    have hv : acc = v := Except.ok.inj h
    subst hv
    exact hacc
  | cons p rest ih =>
    intro acc v hacc hterm h
    unfold accumLossD at h
    cases hp : pairTermD cs ts p with
    | error e => rw [hp] at h; exact absurd h (by simp)
    | ok w =>
      rw [hp] at h
      have hw : w.2 = 0 := hterm p (List.mem_cons_self _ _) w hp
      have haw : (dAdd acc w).2 = 0 := by
        unfold dAdd
        simp [hacc, hw]
      exact ih (dAdd acc w) v haw (fun q hq => hterm q (List.mem_cons_of_mem _ hq)) h

/-- C5: no gradient flows from teacher_outputs to the returned loss.  In the
    forward-mode AD model, whenever every student tangent is zero and the
    teacher tangents are arbitrary, any value forwardD returns has zero
    tangent: the .detach() after the teacher softmax zeroes every teacher
    tangent, so the loss is a fixed target with respect to the teacher and
    differentiable through the student path only. -/
theorem c5_teacher_detached (dl : DistillLoss) (s t : DMat) (epoch : ℤ) (v : Dual)
    (hs : ∀ row ∈ s, ∀ x ∈ row, x.2 = 0)
    (hok : forwardD dl s t epoch = .ok v) : v.2 = 0 := by
  unfold forwardD at hok
  cases hnp : npIndex dl.teacher_temp_schedule epoch with
  | error e => simp only [hnp] at hok; exact absurd hok (by simp)
  | ok temp =>
    simp only [hnp] at hok
    cases hacc : accumLossD
        (chunkTorch dl.n_crops
          (s.map (fun r => r.map (fun x => dDiv x (dConst (dl.student_temp : ℝ))))))
        (chunkTorch dl.n_crops
          ((t.map (fun r => softmaxRowD (r.map (fun x => dDiv x (dConst (temp : ℝ)))))).map
            (fun r => r.map dDetach)))
        (pairsList dl.n_crops) (dConst 0) with
    | error e => simp only [hacc] at hok; exact absurd hok (by simp)
    | ok loss =>
      simp only [hacc] at hok
      by_cases hz : dl.n_crops * (dl.n_crops - 1) = 0
      · rw [if_pos hz] at hok
        exact absurd hok (by simp)
      · rw [if_neg hz] at hok
        have hv : dDiv loss (dConst ((dl.n_crops * (dl.n_crops - 1) : ℕ) : ℝ)) = v :=
          Except.ok.inj hok
        have hloss : loss.2 = 0 := by
          apply accumLossD_tangent _ _ _ (dConst 0) loss rfl _ hacc
          intro p hp w hw
          unfold pairTermD at hw
          cases hg1 : tupleGet (chunkTorch dl.n_crops
              (s.map (fun r => r.map (fun x => dDiv x (dConst (dl.student_temp : ℝ)))))) p.1 with
          | error e => rw [hg1] at hw; exact absurd hw (by simp)
          | ok si =>
            simp only [hg1] at hw
            cases hg2 : tupleGet (chunkTorch dl.n_crops
                ((t.map (fun r => softmaxRowD (r.map (fun x => dDiv x (dConst (temp : ℝ)))))).map
                  (fun r => r.map dDetach))) p.2 with
            | error e => rw [hg2] at hw; exact absurd hw (by simp)
            | ok tj =>
              simp only [hg2] at hw
              apply klDivD_tangent _ _ w _ _ hw
              · intro a ha
                obtain ⟨row, hrow, rfl⟩ := List.mem_map.mp ha
                apply logSoftmaxRowD_tangent
                intro x hx
                have hrow2 : row ∈ s.map
                    (fun r => r.map (fun x => dDiv x (dConst (dl.student_temp : ℝ)))) :=
                  chunkTorch_mem (tupleGet_ok_mem hg1) hrow
                obtain ⟨orig, horig, rfl⟩ := List.mem_map.mp hrow2
                obtain ⟨x0, hx0, rfl⟩ := List.mem_map.mp hx
                exact dDiv_tangent _ _ (hs orig horig x0 hx0) rfl
              · intro b hb x hx
                have hb2 : b ∈ (t.map
                    (fun r => softmaxRowD (r.map (fun x => dDiv x (dConst (temp : ℝ)))))).map
                      (fun r => r.map dDetach) :=
                  chunkTorch_mem (tupleGet_ok_mem hg2) hb
                obtain ⟨m, hm, rfl⟩ := List.mem_map.mp hb2
                obtain ⟨y, hy, rfl⟩ := List.mem_map.mp hx
                rfl
        rw [← hv]
        exact dDiv_tangent _ _ hloss rfl

theorem forwardD_eval :
    forwardD dlUnit [[((0:ℝ), (0:ℝ))], [((0:ℝ), (0:ℝ))]]
      [[((0:ℝ), (3:ℝ))], [((0:ℝ), (5:ℝ))]] 0 = .ok (0, 0) := by
  simp only [forwardD, dlUnit, npIndex_unit0]
  norm_num [dDiv, dConst, dExp, dLog, dSub, dMul, dAdd, dSum, dDetach, softmaxRowD,
    logSoftmaxRowD, klPointD, klDivBatchmeanD, broadcastAll, broadcastPairs, pairTermD,
    accumLossD, tupleGet, pairs_two, chunk2_two, Real.exp_zero, Real.log_one]

/-- C5 (witness): the detach theorem applied to a concrete call with nonzero
    teacher tangents; the loss tangent is zero. -/
theorem c5_teacher_detached_witness :
    forwardD dlUnit [[((0:ℝ), (0:ℝ))], [((0:ℝ), (0:ℝ))]]
      [[((0:ℝ), (3:ℝ))], [((0:ℝ), (5:ℝ))]] 0 = .ok (0, 0) ∧ ((0:ℝ), (0:ℝ)).2 = 0 := by
  refine ⟨forwardD_eval, c5_teacher_detached dlUnit _ _ 0 (0, 0) ?_ forwardD_eval⟩
  intro row hrow
  simp only [List.mem_cons, List.not_mem_nil, or_false] at hrow
  rcases hrow with rfl | rfl <;>
    (intro x hx
     simp only [List.mem_cons, List.not_mem_nil, or_false] at hx
     subst hx
     rfl)

/-! Claim C8: permuting the crop blocks leaves the loss unchanged. -/

theorem flatten_drop_take {B : ℕ} :
    ∀ (L : List Mat) (k : ℕ), (∀ l ∈ L, l.length = B) → k < L.length →
      (L.flatten.drop (k * B)).take B = L.getD k [] := by
  intro L
  induction L with
  | nil =>
    intro k _ hk
    simp at hk
  | cons hd tl ih =>
    intro k hall hk
    have hhd : hd.length = B := hall hd (List.mem_cons_self _ _)
    cases k with
    | zero =>
      simp only [Nat.zero_mul, List.drop_zero, List.flatten_cons]
      rw [← hhd, List.take_left]
      rfl
    | succ k2 =>
      have hdr : ((hd :: tl).flatten).drop ((k2 + 1) * B) = tl.flatten.drop (k2 * B) := by
        rw [List.flatten_cons]
        have he : (k2 + 1) * B = hd.length + k2 * B := by rw [hhd]; ring
        rw [he, List.drop_append]
      rw [hdr]
      exact ih k2 (fun l hl => hall l (List.mem_cons_of_mem _ hl)) (by simpa using hk)

theorem chunkTorch_flatten (n B : ℕ) (hB : 1 ≤ B) (S : Fin n → Mat)
    (hS : ∀ i, (S i).length = B) :
    chunkTorch n (List.ofFn S).flatten = List.ofFn S := by
  rcases Nat.eq_zero_or_pos n with hn | hn
  · subst hn
    have h0 : List.ofFn S = [] := List.ofFn_zero S
    rw [h0]
    rfl
  · have hlen : (List.ofFn S).flatten.length = n * B := by
      rw [List.length_flatten, List.map_ofFn]
      rw [List.sum_ofFn]
      have he : ∀ i : Fin n, (List.length ∘ S) i = B := fun i => hS i
      rw [Finset.sum_congr rfl (fun i _ => he i), Finset.sum_const, Finset.card_univ,
        Fintype.card_fin, smul_eq_mul]
    simp only [chunkTorch]
    rw [hlen]
    have hc : (n * B + n - 1) / n = B := by
      have h1 : n * B + n - 1 = n - 1 + B * n := by
        rw [mul_comm B n]
        omega
      rw [h1, Nat.add_mul_div_right _ _ hn, Nat.div_eq_of_lt (by omega), Nat.zero_add]
    rw [hc]
    rw [if_neg (by omega : ¬ B = 0)]
    have hnum : (n * B + B - 1) / B = n := by
      have h1 : n * B + B - 1 = B - 1 + n * B := by omega
      rw [h1, Nat.add_mul_div_right _ _ (by omega : 0 < B), Nat.div_eq_of_lt (by omega),
        Nat.zero_add]
    rw [hnum]
    apply List.ext_getElem
    · rw [List.length_map, List.length_range, List.length_ofFn]
    · intro k h1 h2
      rw [List.getElem_map, List.getElem_range]
      have hk : k < n := by
        rw [List.length_map, List.length_range] at h1
        exact h1
      have hfd := flatten_drop_take (List.ofFn S) k
        (fun l hl => by
          obtain ⟨i, rfl⟩ := (List.mem_ofFn S l).mp hl
          exact hS i)
        (by rw [List.length_ofFn]; exact hk)
      rw [hfd, List.getD_eq_getElem _ _ (by rw [List.length_ofFn]; exact hk)]

theorem tupleGet_ofFn {n : ℕ} (S : Fin n → Mat) (i : ℕ) (hi : i < n) :
    tupleGet (List.ofFn S) i = .ok (S ⟨i, hi⟩) := by
  unfold tupleGet
  rw [List.getElem?_ofFn]
  simp [List.ofFnNthVal, hi]

theorem permNat_lt {n : ℕ} (sg : Equiv.Perm (Fin n)) {i : ℕ} (hi : i < n) :
    permNat n sg i < n := by
  unfold permNat
  rw [dif_pos hi]
  exact (sg ⟨i, hi⟩).isLt

theorem permNat_inj {n : ℕ} (sg : Equiv.Perm (Fin n)) :
    Function.Injective (permNat n sg) := by
  intro a b hab
  unfold permNat at hab
  by_cases ha : a < n <;> by_cases hb : b < n
  · rw [dif_pos ha, dif_pos hb] at hab
    have h2 : sg ⟨a, ha⟩ = sg ⟨b, hb⟩ := Fin.ext hab
    have h3 := sg.injective h2
    exact congrArg Fin.val h3
  · rw [dif_pos ha, dif_neg hb] at hab
    have := (sg ⟨a, ha⟩).isLt
    omega
  · rw [dif_neg ha, dif_pos hb] at hab
    have := (sg ⟨b, hb⟩).isLt
    omega
  · rwa [dif_neg ha, dif_neg hb] at hab

theorem permNat_comp_inv {n : ℕ} (sg : Equiv.Perm (Fin n)) (i : ℕ) :
    permNat n sg (permNat n sg⁻¹ i) = i := by
  by_cases hi : i < n
  · unfold permNat
    rw [dif_pos hi, dif_pos (sg⁻¹ ⟨i, hi⟩).isLt]
    simp
  · unfold permNat
    rw [dif_neg hi, dif_neg hi]

theorem pairsList_nodup (n : ℕ) : (pairsList n).Nodup := by
  unfold pairsList
  apply List.nodup_flatMap.mpr
  constructor
  · intro i hi
    apply List.Nodup.map
    · intro a b hab
      simpa using congrArg Prod.snd hab
    · exact List.Nodup.filter _ (List.nodup_range n)
  · refine List.Pairwise.imp ?_ (List.pairwise_lt_range n)
    intro a b hab x hx1 hx2
    obtain ⟨j1, hj1, rfl⟩ := List.mem_map.mp hx1
    obtain ⟨j2, hj2, he⟩ := List.mem_map.mp hx2
    have := congrArg Prod.fst he
    simp only at this
    omega

theorem pairsList_permNat_mem {n : ℕ} (sg : Equiv.Perm (Fin n)) {p : ℕ × ℕ}
    (hp : p ∈ pairsList n) :
    (permNat n sg p.1, permNat n sg p.2) ∈ pairsList n := by
  obtain ⟨h1, h2, h3⟩ := (mem_pairsList n p).mp hp
  refine (mem_pairsList n _).mpr ⟨permNat_lt sg h1, permNat_lt sg h2, ?_⟩
  intro hc
  exact h3 (permNat_inj sg hc)

theorem pairs_map_perm (n : ℕ) (sg : Equiv.Perm (Fin n)) :
    ((pairsList n).map (fun p => (permNat n sg p.1, permNat n sg p.2))).Perm (pairsList n) := by
  have hinj : Function.Injective (fun p : ℕ × ℕ => (permNat n sg p.1, permNat n sg p.2)) := by
    intro a b hab
    have h1 := congrArg Prod.fst hab
    have h2 := congrArg Prod.snd hab
    simp only at h1 h2
    exact Prod.ext (permNat_inj sg h1) (permNat_inj sg h2)
  apply (List.perm_ext_iff_of_nodup ((pairsList_nodup n).map hinj) (pairsList_nodup n)).mpr
  intro p
  constructor
  · intro hp
    obtain ⟨q, hq, rfl⟩ := List.mem_map.mp hp
    exact pairsList_permNat_mem sg hq
  · intro hp
    apply List.mem_map.mpr
    refine ⟨(permNat n sg⁻¹ p.1, permNat n sg⁻¹ p.2), pairsList_permNat_mem sg⁻¹ hp, ?_⟩
    simp only
    rw [permNat_comp_inv, permNat_comp_inv]

theorem accumLoss_ok_sum (cs ts : List Mat) (g : ℕ × ℕ → ℝ) :
    ∀ (l : List (ℕ × ℕ)) (acc : ℝ), (∀ p ∈ l, pairTerm cs ts p = .ok (g p)) →
      accumLoss cs ts l acc = .ok (acc + (l.map g).sum) := by
  intro l
  induction l with
  | nil =>
    intro acc _
    simp [accumLoss]
  | cons p rest ih =>
    intro acc hall
    unfold accumLoss
    simp only [hall p (List.mem_cons_self _ _)]
    rw [ih (acc + g p) (fun q hq => hall q (List.mem_cons_of_mem _ hq))]
    simp only [List.map_cons, List.sum_cons]
    exact congrArg Except.ok (by ring)

theorem accumLoss_error (cs ts : List Mat) (e0 : Err) :
    ∀ (l : List (ℕ × ℕ)) (acc : ℝ),
      (∀ p ∈ l, (∃ w, pairTerm cs ts p = .ok w) ∨ pairTerm cs ts p = .error e0) →
      (¬ ∀ p ∈ l, ∃ w, pairTerm cs ts p = .ok w) →
      accumLoss cs ts l acc = .error e0 := by
  intro l
  induction l with
  | nil =>
    intro acc _ hex
    exact absurd (by intro p hp; simp at hp) hex
  | cons p rest ih =>
    intro acc hall hex
    unfold accumLoss
    rcases hall p (List.mem_cons_self _ _) with ⟨w, hw⟩ | hw
    · simp only [hw]
      apply ih (acc + w) (fun q hq => hall q (List.mem_cons_of_mem _ hq))
      intro hrest
      apply hex
      intro q hq
      rcases List.mem_cons.mp hq with rfl | hq2
      · exact ⟨w, hw⟩
      · exact hrest q hq2
    · simp only [hw]

theorem klDiv_ok_or_shape (A B : Mat) :
    (∃ w, klDivBatchmean A B = .ok w) ∨ klDivBatchmean A B = .error .shapeError := by
  cases h1 : broadcastPairs A B with
  | none =>
    right
    unfold klDivBatchmean
    simp only [h1]
  | some rowPairs =>
    cases h2 : broadcastAll rowPairs with
    | none =>
      right
      unfold klDivBatchmean
      simp only [h1, h2]
    | some rows =>
      left
      refine ⟨(rows.map (fun row => (row.map (fun q => klPoint q.1 q.2)).sum)).sum
        / (A.length : ℝ), ?_⟩
      unfold klDivBatchmean
      simp only [h1, h2]

theorem pairTerm_ofFn_ok_or_shape {n : ℕ} (SP TP : Fin n → Mat) (p : ℕ × ℕ)
    (h1 : p.1 < n) (h2 : p.2 < n) :
    (∃ w, pairTerm (List.ofFn SP) (List.ofFn TP) p = .ok w) ∨
      pairTerm (List.ofFn SP) (List.ofFn TP) p = .error .shapeError := by
  unfold pairTerm
  rw [tupleGet_ofFn _ _ h1, tupleGet_ofFn _ _ h2]
  exact klDiv_ok_or_shape _ _

theorem pairTerm_ofFn_perm {n : ℕ} (SP TP : Fin n → Mat) (sg : Equiv.Perm (Fin n))
    (p : ℕ × ℕ) (hp : p ∈ pairsList n) :
    pairTerm (List.ofFn (fun i => SP (sg i))) (List.ofFn (fun i => TP (sg i))) p =
    pairTerm (List.ofFn SP) (List.ofFn TP) (permNat n sg p.1, permNat n sg p.2) := by
  obtain ⟨h1, h2, h3⟩ := (mem_pairsList n p).mp hp
  unfold pairTerm
  rw [tupleGet_ofFn _ _ h1, tupleGet_ofFn _ _ h2,
    tupleGet_ofFn _ _ (permNat_lt sg h1), tupleGet_ofFn _ _ (permNat_lt sg h2)]
  have e1 : (⟨permNat n sg p.1, permNat_lt sg h1⟩ : Fin n) = sg ⟨p.1, h1⟩ := by
    apply Fin.ext
    show permNat n sg p.1 = ((sg ⟨p.1, h1⟩ : Fin n) : ℕ)
    unfold permNat
    rw [dif_pos h1]
  have e2 : (⟨permNat n sg p.2, permNat_lt sg h2⟩ : Fin n) = sg ⟨p.2, h2⟩ := by
    apply Fin.ext
    show permNat n sg p.2 = ((sg ⟨p.2, h2⟩ : Fin n) : ℕ)
    unfold permNat
    rw [dif_pos h2]
  rw [e1, e2]

theorem accumLoss_ofFn_perm {n : ℕ} (SP TP : Fin n → Mat) (sg : Equiv.Perm (Fin n)) :
    accumLoss (List.ofFn (fun i => SP (sg i))) (List.ofFn (fun i => TP (sg i)))
      (pairsList n) 0 =
    accumLoss (List.ofFn SP) (List.ofFn TP) (pairsList n) 0 := by
  by_cases hall : ∀ p ∈ pairsList n, ∃ w, pairTerm (List.ofFn SP) (List.ofFn TP) p = .ok w
  · have hgok : ∀ p ∈ pairsList n, pairTerm (List.ofFn SP) (List.ofFn TP) p =
        .ok (valOf (pairTerm (List.ofFn SP) (List.ofFn TP) p)) := by
      intro p hp
      obtain ⟨w, hw⟩ := hall p hp
      rw [hw]
      rfl
    have hL := accumLoss_ok_sum (List.ofFn (fun i => SP (sg i))) (List.ofFn (fun i => TP (sg i)))
      (fun p => valOf (pairTerm (List.ofFn SP) (List.ofFn TP)
        (permNat n sg p.1, permNat n sg p.2)))
      (pairsList n) 0
      (fun p hp => by
        rw [pairTerm_ofFn_perm SP TP sg p hp]
        exact hgok _ (pairsList_permNat_mem sg hp))
    have hR := accumLoss_ok_sum (List.ofFn SP) (List.ofFn TP)
      (fun p => valOf (pairTerm (List.ofFn SP) (List.ofFn TP) p)) (pairsList n) 0 hgok
    rw [hL, hR]
    have hperm := (pairs_map_perm n sg).map
      (fun p => valOf (pairTerm (List.ofFn SP) (List.ofFn TP) p))
    have hsum := hperm.sum_eq
    rw [List.map_map] at hsum
    exact congrArg Except.ok (by rw [← hsum]; rfl)
  · have hallL : ¬ ∀ p ∈ pairsList n, ∃ w,
        pairTerm (List.ofFn (fun i => SP (sg i))) (List.ofFn (fun i => TP (sg i))) p = .ok w := by
      intro hLok
      apply hall
      intro q hq
      have hpmem : (permNat n sg⁻¹ q.1, permNat n sg⁻¹ q.2) ∈ pairsList n :=
        pairsList_permNat_mem sg⁻¹ hq
      obtain ⟨w, hw⟩ := hLok _ hpmem
      rw [pairTerm_ofFn_perm SP TP sg _ hpmem] at hw
      simp only [permNat_comp_inv] at hw
      exact ⟨w, hw⟩
    have hosL : ∀ p ∈ pairsList n,
        (∃ w, pairTerm (List.ofFn (fun i => SP (sg i)))
          (List.ofFn (fun i => TP (sg i))) p = .ok w) ∨
        pairTerm (List.ofFn (fun i => SP (sg i)))
          (List.ofFn (fun i => TP (sg i))) p = .error .shapeError := by
      intro p hp
      obtain ⟨h1, h2, _⟩ := (mem_pairsList n p).mp hp
      exact pairTerm_ofFn_ok_or_shape _ _ p h1 h2
    have hosR : ∀ p ∈ pairsList n,
        (∃ w, pairTerm (List.ofFn SP) (List.ofFn TP) p = .ok w) ∨
        pairTerm (List.ofFn SP) (List.ofFn TP) p = .error .shapeError := by
      intro p hp
      obtain ⟨h1, h2, _⟩ := (mem_pairsList n p).mp hp
      exact pairTerm_ofFn_ok_or_shape _ _ p h1 h2
    rw [accumLoss_error _ _ .shapeError _ 0 hosL hallL,
      accumLoss_error _ _ .shapeError _ 0 hosR hall]

theorem flatten_ofFn_map {n : ℕ} (M : Fin n → Mat) (f : List ℝ → List ℝ) :
    ((List.ofFn M).flatten.map f) = (List.ofFn (fun i => (M i).map f)).flatten := by
  rw [List.map_flatten, List.map_ofFn]
  rfl

/-- C8: applying a permutation of the crop blocks identically to both the
    student and the teacher inputs leaves the value of forward unchanged.
    The blocks are recovered exactly by torch.chunk, each accumulated term of
    the permuted call equals the term of the original call at the permuted
    index pair, the pair list is mapped bijectively onto itself, and the sum
    of the (commutative) real terms is permutation invariant; when some pair
    fails to broadcast, both calls fail with the same shape error. -/
theorem c8_block_permutation (dl : DistillLoss) (n B B2 : ℕ)
    (hn : dl.n_crops = n) (hB : 1 ≤ B) (hB2 : 1 ≤ B2)
    (S T : Fin n → Mat) (hS : ∀ i, (S i).length = B) (hT : ∀ i, (T i).length = B2)
    (sg : Equiv.Perm (Fin n)) (epoch : ℤ) :
    dl.forward (List.ofFn (fun i => S (sg i))).flatten
      (List.ofFn (fun i => T (sg i))).flatten epoch =
    dl.forward (List.ofFn S).flatten (List.ofFn T).flatten epoch := by
  subst hn
  unfold DistillLoss.forward
  cases hnp : npIndex dl.teacher_temp_schedule epoch with
  | error e => simp only [hnp]
  | ok temp =>
    simp only [hnp]
    rw [flatten_ofFn_map (fun i => S (sg i)) (fun r => r.map (fun x => x / (dl.student_temp : ℝ))),
      flatten_ofFn_map S (fun r => r.map (fun x => x / (dl.student_temp : ℝ))),
      flatten_ofFn_map (fun i => T (sg i))
        (fun r => softmaxRow (r.map (fun x => x / (temp : ℝ)))),
      flatten_ofFn_map T (fun r => softmaxRow (r.map (fun x => x / (temp : ℝ))))]
    rw [chunkTorch_flatten dl.n_crops B hB _
        (fun i => by rw [List.length_map]; exact hS (sg i)),
      chunkTorch_flatten dl.n_crops B2 hB2 _
        (fun i => by rw [List.length_map]; exact hT (sg i)),
      chunkTorch_flatten dl.n_crops B hB _
        (fun i => by rw [List.length_map]; exact hS i),
      chunkTorch_flatten dl.n_crops B2 hB2 _
        (fun i => by rw [List.length_map]; exact hT i)]
    rw [accumLoss_ofFn_perm (fun i => (S i).map (fun r => r.map (fun x => x / (dl.student_temp : ℝ))))
      (fun i => (T i).map (fun r => softmaxRow (r.map (fun x => x / (temp : ℝ))))) sg]

/-- C8 (witness): the permutation theorem at two one-row blocks and the swap
    permutation, stated on literal matrices. -/
theorem c8_block_permutation_witness :
    DistillLoss.forward dlUnit [[1], [0]] [[1], [0]] 0 =
    DistillLoss.forward dlUnit [[0], [1]] [[0], [1]] 0 := by
  have h := c8_block_permutation dlUnit 2 1 1 rfl (by omega) (by omega)
    (fun i : Fin 2 => [[((i : ℕ) : ℝ)]]) (fun i : Fin 2 => [[((i : ℕ) : ℝ)]])
    (fun i => rfl) (fun i => rfl) (Equiv.swap 0 1) 0
  have e1 : (List.ofFn (fun i : Fin 2 =>
      [[(((Equiv.swap (0 : Fin 2) 1 i : Fin 2) : ℕ) : ℝ)]])).flatten = [[1], [0]] := by
    simp [List.ofFn_succ, Equiv.swap_apply_left, Equiv.swap_apply_right]
  have e2 : (List.ofFn (fun i : Fin 2 => [[((i : ℕ) : ℝ)]])).flatten = [[0], [1]] := by
    simp [List.ofFn_succ]
  rw [e1, e2] at h
  exact h
